/-
Verification of the srjet boundary-condition problem generator
(src/pgen/srjet_aphi_rhoper_no_bphi.cpp).

The development shallowly embeds the file-scoped state and the free
functions of the source into Lean over the real numbers: the configuration
globals become a `Params` record, the derived globals computed in
`Mesh::InitUserMeshData` become functions of `Params`, and the helper
functions (`SmoothStep`, `fintg1`, `fintg2`, `flux_intg`, `rang`, `f`,
`r0_r_z`, `A2`) and the per-cell computations of `JetInnerX3` become
functions of `Params` and the sampled coordinates.  The unbounded
false-position `while` loop of `r0_r_z` is embedded as an explicit step
relation iterated from the initial bracket, with the loop's exit tests
spelled out; the value of the loop is the secant candidate at the first
iteration whose exit test fires.
-/
import Mathlib

namespace Srjet

/-- The configuration parameters read in `Mesh::InitUserMeshData`:
ambient state, jet state, magnetic amplitudes, geometry of the jet and of
the radial mesh, and the azimuthal perturbation parameters. -/
structure Params where
  d_amb : ℝ
  p_amb : ℝ
  vx_amb : ℝ
  vy_amb : ℝ
  vz_amb : ℝ
  bx_amb : ℝ
  by_amb : ℝ
  bz_amb : ℝ
  d_jet : ℝ
  p_jet : ℝ
  vx_jet : ℝ
  vy_jet : ℝ
  vz_jet : ℝ
  bx_jet : ℝ
  by_jet : ℝ
  bz_jet : ℝ
  b_0 : ℝ
  z_0 : ℝ
  r_jet : ℝ
  dr_jet : ℝ
  x1min : ℝ
  x1rat : ℝ
  mang : ℝ
  dang : ℝ
  gad : ℝ

/-- `gam_add = gad/(gad-1.)` computed in `InitUserMeshData`. -/
noncomputable def gam_add (p : Params) : ℝ := p.gad / (p.gad - 1)

/-- `a = r_jet / 2.` computed in `InitUserMeshData`. -/
noncomputable def a (p : Params) : ℝ := p.r_jet / 2

/-- `d = 1./(4.*dr_jet*dr_jet*dr_jet)` computed in `InitUserMeshData`. -/
noncomputable def d (p : Params) : ℝ := 1 / (4 * p.dr_jet * p.dr_jet * p.dr_jet)

/-- The ambient Lorentz factor
`gamma_amb = sqrt(1.+vx_amb*vx_amb+vy_amb*vy_amb+vz_amb*vz_amb)`. -/
noncomputable def gamma_amb (p : Params) : ℝ :=
  Real.sqrt (1 + p.vx_amb * p.vx_amb + p.vy_amb * p.vy_amb + p.vz_amb * p.vz_amb)

/-- The jet Lorentz factor
`gamma_jet = sqrt(1.+vx_jet*vx_jet+vy_jet*vy_jet+vz_jet*vz_jet)`. -/
noncomputable def gamma_jet (p : Params) : ℝ :=
  Real.sqrt (1 + p.vx_jet * p.vx_jet + p.vy_jet * p.vy_jet + p.vz_jet * p.vz_jet)

/-- `rang_amb = vx_amb / vz_amb`. -/
noncomputable def rang_amb (p : Params) : ℝ := p.vx_amb / p.vz_amb

/-- `rang_jet = vx_jet / vz_jet`. -/
noncomputable def rang_jet (p : Params) : ℝ := p.vx_jet / p.vz_jet

/-- `phang_amb = vy_amb / vz_amb`. -/
noncomputable def phang_amb (p : Params) : ℝ := p.vy_amb / p.vz_amb

/-- `phang_jet = vy_jet / vz_jet`. -/
noncomputable def phang_jet (p : Params) : ℝ := p.vy_jet / p.vz_jet

/-- `SmoothStep`: the clamped cubic step approximation
`1./2. - modx*(3.-modx*modx)/4.` with `modx = max(min(x,1.),-1.)`. -/
noncomputable def SmoothStep (x : ℝ) : ℝ :=
  let modx := max (min x 1) (-1)
  1 / 2 - modx * (3 - modx * modx) / 4

/-- `fintg1`: the closed-form flux antiderivative of the inner section,
`b_0*((a*a)/2.)*log(a*a + x1*x1)`. -/
noncomputable def fintg1 (p : Params) (x1 : ℝ) : ℝ :=
  p.b_0 * ((a p * a p) / 2) * Real.log (a p * a p + x1 * x1)

/-- `fintg2`: the closed-form flux antiderivative of the transition
section, a cubic-plus-arctan-plus-log expression. -/
noncomputable def fintg2 (p : Params) (x1 : ℝ) : ℝ :=
  p.b_0 * ((d p * a p * a p) / 6) *
    (x1 * (-6 * a p * a p - 18 * p.dr_jet * p.dr_jet + 18 * p.r_jet * p.r_jet -
        9 * p.r_jet * x1 + 2 * x1 * x1) +
      6 * a p * (a p * a p + 3 * p.dr_jet * p.dr_jet - 3 * p.r_jet * p.r_jet) *
        Real.arctan (x1 / a p) +
      (9 * p.r_jet * a p * a p + 6 * p.dr_jet * p.dr_jet * p.dr_jet +
        9 * p.r_jet * p.dr_jet * p.dr_jet - 3 * p.r_jet * p.r_jet * p.r_jet) *
        Real.log (a p * a p + x1 * x1))

/-- The derivative of `fintg1`: the region-A azimuthal-field profile
`b_0 a² x/(a² + x²)`. -/
noncomputable def Dfintg1 (p : Params) (x : ℝ) : ℝ :=
  p.b_0 * (a p * a p) * x / (a p * a p + x * x)

/-- The derivative of `fintg2` in closed form. -/
noncomputable def Dfintg2 (p : Params) (x : ℝ) : ℝ :=
  p.b_0 * ((d p * a p * a p) / 6) *
    ((-6 * a p * a p - 18 * p.dr_jet * p.dr_jet + 18 * p.r_jet * p.r_jet -
        18 * p.r_jet * x + 6 * x * x) +
      6 * a p * a p * (a p * a p + 3 * p.dr_jet * p.dr_jet - 3 * p.r_jet * p.r_jet) /
        (a p * a p + x * x) +
      (9 * p.r_jet * a p * a p + 6 * p.dr_jet * p.dr_jet * p.dr_jet +
        9 * p.r_jet * p.dr_jet * p.dr_jet - 3 * p.r_jet * p.r_jet * p.r_jet) *
        (2 * x) / (a p * a p + x * x))

/-- `flux_intg`: the piecewise flux function with regime boundaries at
`r_jet - dr_jet` and `r_jet + dr_jet`, referenced against the value at
`x1min` and frozen beyond the outer boundary. -/
noncomputable def flux_intg (p : Params) (x1 : ℝ) : ℝ :=
  if x1 < p.r_jet - p.dr_jet then
    fintg1 p x1 - fintg1 p p.x1min
  else if x1 < p.r_jet + p.dr_jet then
    fintg2 p x1 - fintg2 p (p.r_jet - p.dr_jet) + fintg1 p (p.r_jet - p.dr_jet) -
      fintg1 p p.x1min
  else
    fintg2 p (p.r_jet + p.dr_jet) - fintg2 p (p.r_jet - p.dr_jet) +
      fintg1 p (p.r_jet - p.dr_jet) - fintg1 p p.x1min

/-- `rang`: the blended transverse-to-axial velocity ratio,
`((rang_jet - rang_amb)*SmoothStep((x1-r_jet)/dr_jet) + rang_amb)*(x1-x1min)/r_jet`. -/
noncomputable def rang (p : Params) (x1 : ℝ) : ℝ :=
  ((rang_jet p - rang_amb p) * SmoothStep ((x1 - p.r_jet) / p.dr_jet) + rang_amb p) *
    (x1 - p.x1min) / p.r_jet

/-- `f`: the implicit field-line relation whose root in `r_0` is the
source radius, `r_0 + rang(r_0)*z_0*(1-exp(-x3/z_0)) - x1`. -/
noncomputable def f (p : Params) (r_0 x1 x3 : ℝ) : ℝ :=
  r_0 + rang p r_0 * p.z_0 * (1 - Real.exp (-x3 / p.z_0)) - x1

/-- The `|f| < 1e-5` break tolerance of the root-solve loop in `r0_r_z`. -/
noncomputable def tol : ℝ := 1e-5

/-- The `eps = 1e-4` bracket-width tolerance of the root-solve loop. -/
noncomputable def eps : ℝ := 1e-4

/-- The secant candidate `r3 = r1 - f(r1)*(r2 - r1)/(f(r2) - f(r1))`
computed from a bracket. -/
noncomputable def secant (F : ℝ → ℝ) (r1 r2 : ℝ) : ℝ :=
  r1 - F r1 * (r2 - r1) / (F r2 - F r1)

/-- One bracket update of the false-position loop: replace the endpoint on
the same side of the root as the secant candidate
(`if f_mul < 0 then r2 = r3 else r1 = r3`). -/
noncomputable def rfStep (F : ℝ → ℝ) (s : ℝ × ℝ) : ℝ × ℝ :=
  let r3 := secant F s.1 s.2
  if F s.1 * F r3 < 0 then (s.1, r3) else (r3, s.2)

/-- The bracket after `n` updates of the false-position loop, starting
from the initial bracket `(r1, r2)`. -/
noncomputable def rfIter (F : ℝ → ℝ) (r1 r2 : ℝ) (n : ℕ) : ℝ × ℝ :=
  (rfStep F)^[n] (r1, r2)

/-- The secant candidate computed during the `(n+1)`-st loop iteration
(acting on the bracket after `n` updates). -/
noncomputable def r3At (F : ℝ → ℝ) (r1 r2 : ℝ) (n : ℕ) : ℝ :=
  secant F (rfIter F r1 r2 n).1 (rfIter F r1 r2 n).2

/-- The left bracket endpoint `r1` after `n` loop updates. -/
noncomputable def r1Seq (F : ℝ → ℝ) (r1 r2 : ℝ) (n : ℕ) : ℝ :=
  (rfIter F r1 r2 n).1

/-- The right bracket endpoint `r2` after `n` loop updates. -/
noncomputable def r2Seq (F : ℝ → ℝ) (r1 r2 : ℝ) (n : ℕ) : ℝ :=
  (rfIter F r1 r2 n).2

/-- The loop's exit test at the `(n+1)`-st iteration: either the break
`|f(r3)| < 1e-5` fires, or the width `diff = |r1 - r2|` recorded during
this iteration is at most `eps`, so the `while` guard fails afterwards. -/
def rfExit (F : ℝ → ℝ) (r1 r2 : ℝ) (n : ℕ) : Prop :=
  |F (r3At F r1 r2 n)| < tol ∨ |(rfIter F r1 r2 n).1 - (rfIter F r1 r2 n).2| ≤ eps

/-- Termination of the false-position loop: some iteration's exit test
fires. -/
def rfTerminates (F : ℝ → ℝ) (r1 r2 : ℝ) : Prop :=
  ∃ n, rfExit F r1 r2 n

open Classical in
/-- The value returned by the false-position loop: the secant candidate of
the first iteration whose exit test fires.  A non-terminating loop has no
value in the source; the embedding assigns the junk value `0` there. -/
noncomputable def rfSolve (F : ℝ → ℝ) (r1 r2 : ℝ) : ℝ :=
  if h : rfTerminates F r1 r2 then r3At F r1 r2 (Nat.find h) else 0

/-- `r0_r_z`: the source-radius mapping.  Inside the mapping regime
`x1min < x1 < r_jet + dr_jet` it runs the false-position loop on the
bracket `[x1min, r_jet + dr_jet]` after the two early-return tests; at or
below `x1min` it returns `x1min`; otherwise it returns `x1`. -/
noncomputable def r0_r_z (p : Params) (x1 x3 : ℝ) : ℝ :=
  if x1 < p.r_jet + p.dr_jet ∧ p.x1min < x1 then
    if |f p p.x1min x1 x3| < tol then p.x1min
    else if |f p (p.r_jet + p.dr_jet) x1 x3| < tol then p.r_jet + p.dr_jet
    else rfSolve (fun r => f p r x1 x3) p.x1min (p.r_jet + p.dr_jet)
  else if x1 ≤ p.x1min then p.x1min
  else x1

/-- `A2`: the vector potential at a physical point, the flux at the mapped
source radius divided by the physical radius. -/
noncomputable def A2 (p : Params) (x1 x3 : ℝ) : ℝ :=
  flux_intg p (r0_r_z p x1 x3) / x1

/-! Per-cell quantities computed in the hydro loop of `JetInnerX3`, as
functions of the cell-center radius `r = x1v(i)`, the ghost axial
coordinate `z = x3v(kl-k)` and the azimuthal angle `phi = x2v(j)`. -/

/-- `pert = 1.+dang * cos(x2v(j)*mang)`: the azimuthal perturbation
factor. -/
noncomputable def pert (p : Params) (phi : ℝ) : ℝ :=
  1 + p.dang * Real.cos (phi * p.mang)

/-- `rad = r_0 * pert`: the perturbed mapped radius. -/
noncomputable def rad (p : Params) (r z phi : ℝ) : ℝ :=
  r0_r_z p r z * pert p phi

/-- `smfnc = SmoothStep((r_0 - r_jet)/dr_jet)`: the smoothing weight at
the unperturbed mapped radius. -/
noncomputable def smfnc (p : Params) (r z : ℝ) : ℝ :=
  SmoothStep ((r0_r_z p r z - p.r_jet) / p.dr_jet)

/-- `step = SmoothStep((rad - r_jet)/dr_jet)`: the smoothing weight at the
perturbed mapped radius. -/
noncomputable def step (p : Params) (r z phi : ℝ) : ℝ :=
  SmoothStep ((rad p r z phi - p.r_jet) / p.dr_jet)

/-- `phang`: the blended azimuthal-to-axial velocity ratio, scaled by
`(r_0 - x1min)/r_jet`. -/
noncomputable def phang (p : Params) (r z : ℝ) : ℝ :=
  ((phang_jet p - phang_amb p) * smfnc p r z + phang_amb p) *
    ((r0_r_z p r z - p.x1min) / p.r_jet)

/-- `Bphi_const = (b_0*a*r_jet/(a*a+r_jet*r_jet)) * smfnc`: the azimuthal
field amplitude used in the Bernoulli combination. -/
noncomputable def Bphi_const (p : Params) (r z : ℝ) : ℝ :=
  p.b_0 * a p * p.r_jet / (a p * a p + p.r_jet * p.r_jet) * smfnc p r z

/-- `smfnc_c = SmoothStep((x1min - r_jet)/dr_jet)`. -/
noncomputable def smfnc_c (p : Params) : ℝ :=
  SmoothStep ((p.x1min - p.r_jet) / p.dr_jet)

/-- `b_phi_cen = (b_0*a*x1min/(a*a+x1min*x1min)) * smfnc_c`. -/
noncomputable def b_phi_cen (p : Params) : ℝ :=
  p.b_0 * a p * p.x1min / (a p * a p + p.x1min * p.x1min) * smfnc_c p

/-- `bern_jet`: the jet Bernoulli parameter, with the central pressure
`p_cen = p_amb`. -/
noncomputable def bern_jet (p : Params) : ℝ :=
  (1 + gam_add p * p.p_amb / p.d_jet) * gamma_jet p +
    1 / (gamma_jet p * p.d_jet) * (b_phi_cen p * b_phi_cen p)

/-- `bern_amb`: the ambient Bernoulli parameter. -/
noncomputable def bern_amb (p : Params) : ℝ :=
  (1 + gam_add p * p.p_amb / p.d_amb) * gamma_amb p

/-- `bern_sm = (bern_jet - bern_amb) * step + bern_amb`: the Bernoulli
parameter smoothed with the weight at the perturbed radius. -/
noncomputable def bern_sm (p : Params) (r z phi : ℝ) : ℝ :=
  (bern_jet p - bern_amb p) * step p r z phi + bern_amb p

/-- `bern_sm_np = (bern_jet - bern_amb) * smfnc + bern_amb`: the Bernoulli
parameter smoothed with the weight at the unperturbed radius. -/
noncomputable def bern_sm_np (p : Params) (r z : ℝ) : ℝ :=
  (bern_jet p - bern_amb p) * smfnc p r z + bern_amb p

/-- `atwd_jet = gamma_jet*gamma_jet*(d_jet + gam_add*p_cen)` with
`p_cen = p_amb`. -/
noncomputable def atwd_jet (p : Params) : ℝ :=
  gamma_jet p * gamma_jet p * (p.d_jet + gam_add p * p.p_amb)

/-- `atwd_amb = gamma_amb*gamma_amb*(d_amb + gam_add*p_amb)`. -/
noncomputable def atwd_amb (p : Params) : ℝ :=
  gamma_amb p * gamma_amb p * (p.d_amb + gam_add p * p.p_amb)

/-- `atwd_sm = (atwd_jet - atwd_amb) * smfnc + atwd_amb`: the Atwood
parameter smoothed with the weight at the unperturbed radius. -/
noncomputable def atwd_sm (p : Params) (r z : ℝ) : ℝ :=
  (atwd_jet p - atwd_amb p) * smfnc p r z + atwd_amb p

/-- `Psi = (atwd_sm + Bphi_const*Bphi_const)/bern_sm`. -/
noncomputable def Psi (p : Params) (r z phi : ℝ) : ℝ :=
  (atwd_sm p r z + Bphi_const p r z * Bphi_const p r z) / bern_sm p r z phi

/-- `Psi_np = (atwd_sm + Bphi_const*Bphi_const)/bern_sm_np`. -/
noncomputable def Psi_np (p : Params) (r z : ℝ) : ℝ :=
  (atwd_sm p r z + Bphi_const p r z * Bphi_const p r z) / bern_sm_np p r z

/-- `gamma`: the closed-form bulk Lorentz factor computed from `Psi`,
`(Psi/(2.*gam_add*p)) * (sqrt(1. + (4.*gam_add*p*atwd_sm)/(Psi*Psi)) - 1.)`
with `p = p_amb`. -/
noncomputable def gamma (p : Params) (r z phi : ℝ) : ℝ :=
  Psi p r z phi / (2 * gam_add p * p.p_amb) *
    (Real.sqrt (1 + 4 * gam_add p * p.p_amb * atwd_sm p r z /
      (Psi p r z phi * Psi p r z phi)) - 1)

/-- `gamma_np`: the closed-form bulk Lorentz factor computed from
`Psi_np`. -/
noncomputable def gamma_np (p : Params) (r z : ℝ) : ℝ :=
  Psi_np p r z / (2 * gam_add p * p.p_amb) *
    (Real.sqrt (1 + 4 * gam_add p * p.p_amb * atwd_sm p r z /
      (Psi_np p r z * Psi_np p r z)) - 1)

/-- `prim(IVZ) = sqrt((gamma_np*gamma_np - 1.)/(1. + SQR(rang(r_0))*exp(-2.*z/z_0) + phang*phang))`. -/
noncomputable def vzG (p : Params) (r z : ℝ) : ℝ :=
  Real.sqrt ((gamma_np p r z * gamma_np p r z - 1) /
    (1 + rang p (r0_r_z p r z) * rang p (r0_r_z p r z) * Real.exp (-2 * z / p.z_0) +
      phang p r z * phang p r z))

/-- `prim(IVX) = prim(IVZ)*rang(r_0)*exp(-z/z_0)`. -/
noncomputable def vxG (p : Params) (r z : ℝ) : ℝ :=
  vzG p r z * rang p (r0_r_z p r z) * Real.exp (-z / p.z_0)

/-- `prim(IVY) = prim(IVZ) * phang`. -/
noncomputable def vyG (p : Params) (r z : ℝ) : ℝ :=
  vzG p r z * phang p r z

/-- `prim(IDN) = Psi/gamma`: the ghost-cell density. -/
noncomputable def rhoG (p : Params) (r z phi : ℝ) : ℝ :=
  Psi p r z phi / gamma p r z phi

/-- The primitive state written into one ghost cell by the hydro loop of
`JetInnerX3`. -/
structure GhostPrim where
  rho : ℝ
  vx : ℝ
  vy : ℝ
  vz : ℝ
  press : ℝ

/-- The primitive ghost-cell state synthesized by the hydro loop:
density, three velocities and pressure (`prim(IPR) = p_amb`). -/
noncomputable def ghostPrim (p : Params) (r z phi : ℝ) : GhostPrim :=
  { rho := rhoG p r z phi
    vx := vxG p r z
    vy := vyG p r z
    vz := vzG p r z
    press := p.p_amb }

/-- The radial face field `b.x1f` at face radius `rf` and axial faces
`zf`, `zf_p1` with spacing `delz`, including the mirroring for
`rf < x1min`. -/
noncomputable def bx1fGhost (p : Params) (rf zf zf_p1 delz : ℝ) : ℝ :=
  if rf < p.x1min then
    -(A2 p (2 * p.x1min - rf) zf - A2 p (2 * p.x1min - rf) zf_p1) / delz
  else
    (A2 p rf zf - A2 p rf zf_p1) / delz

/-- The azimuthal face field `b.x2f` written by the boundary fill: the
source computes `r_0` and `smfnc` at the cell but then assigns the value
`0` (the analytic expression is commented out). -/
noncomputable def bx2fGhost (p : Params) (r z : ℝ) : ℝ :=
  let r_0 := r0_r_z p r z
  let _sm := SmoothStep ((r_0 - p.r_jet) / p.dr_jet)
  0

/-- The axial face field `b.x3f` between face radii `rf`, `rf_p1` at axial
face `zf`, including the mirroring about `r_sym = x1v(il+1)` for
`rf < x1min` with the grid-ratio choice of the mirrored neighbor. -/
noncomputable def bx3fGhost (p : Params) (rf rf_p1 zf r_sym : ℝ) : ℝ :=
  if rf < p.x1min then
    let mir_r := 2 * r_sym - rf
    let mir_r_p1 := if 1 < p.x1rat then p.x1rat * mir_r else mir_r + rf_p1 - rf
    2 * (mir_r_p1 * A2 p mir_r_p1 zf - mir_r * A2 p mir_r zf) /
      (mir_r_p1 * mir_r_p1 - mir_r * mir_r)
  else
    2 * (rf_p1 * A2 p rf_p1 zf - rf * A2 p rf zf) / (rf_p1 * rf_p1 - rf * rf)

/-- The closed-form Lorentz-factor inversion as the spec writes it:
`γ = (Psi / (2·k·p)) · (sqrt(1 + 4·k·p·atwoodMixed / Psi²) − 1)` with `k`
the adiabatic exponent ratio and `p` the ambient pressure. -/
noncomputable def gammaClosedForm (Ps k pr atw : ℝ) : ℝ :=
  Ps / (2 * k * pr) * (Real.sqrt (1 + 4 * k * pr * atw / Ps ^ 2) - 1)

/-- The ghost-cell density as a function of the smoothing-weight value
`st` entering the Bernoulli blend; every other ingredient is taken at the
unperturbed mapped radius, so the azimuthal angle enters the density only
through `st`. -/
noncomputable def rhoOfStep (p : Params) (r z st : ℝ) : ℝ :=
  let bs := (bern_jet p - bern_amb p) * st + bern_amb p
  let Ps := (atwd_sm p r z + Bphi_const p r z * Bphi_const p r z) / bs
  let g := Ps / (2 * gam_add p * p.p_amb) *
    (Real.sqrt (1 + 4 * gam_add p * p.p_amb * atwd_sm p r z / (Ps * Ps)) - 1)
  Ps / g

/-- A concrete parameter set used to exercise the theorems. -/
noncomputable def cp : Params :=
  { d_amb := 1, p_amb := 1 / 100, vx_amb := 0, vy_amb := 0, vz_amb := 1
    bx_amb := 0, by_amb := 0, bz_amb := 0
    d_jet := 1 / 10, p_jet := 1 / 100, vx_jet := 0, vy_jet := 0, vz_jet := 5
    bx_jet := 0, by_jet := 0, bz_jet := 0
    b_0 := 1, z_0 := 1, r_jet := 2, dr_jet := 1 / 2
    x1min := 1, x1rat := 1, mang := 1, dang := 0, gad := 4 / 3 }

/-- C1: outside the mapping band the source-radius mapping is the
identity (`r ≥ r_jet + dr_jet` together with `r > x1min` yields
`r0_r_z = r`), and at or below the inner edge it clamps to the inner edge
(`r ≤ x1min` yields `r0_r_z = x1min`). -/
theorem sourceRadius_outside_band (p : Params) (r z : ℝ) :
    (p.r_jet + p.dr_jet ≤ r → p.x1min < r → r0_r_z p r z = r) ∧
    (r ≤ p.x1min → r0_r_z p r z = p.x1min) := by
  constructor
  · intro h1 h2
    have hc : ¬(r < p.r_jet + p.dr_jet ∧ p.x1min < r) := by
      rintro ⟨h, -⟩; linarith
    rw [r0_r_z, if_neg hc, if_neg (not_le.mpr h2)]
  · intro h
    have hc : ¬(r < p.r_jet + p.dr_jet ∧ p.x1min < r) := by
      rintro ⟨-, h'⟩; linarith
    rw [r0_r_z, if_neg hc, if_pos h]

/-- Witness for `sourceRadius_outside_band` at the concrete parameters:
`r = 5 ≥ r_jet + dr_jet = 5/2` maps to itself, and `r = 1/2 ≤ x1min = 1`
maps to the inner edge. -/
theorem sourceRadius_outside_band_witness :
    r0_r_z cp 5 0 = 5 ∧ r0_r_z cp (1 / 2) 0 = cp.x1min :=
  ⟨(sourceRadius_outside_band cp 5 0).1 (by norm_num [cp]) (by norm_num [cp]),
   (sourceRadius_outside_band cp (1 / 2) 0).2 (by norm_num [cp])⟩

/-- C5: the ghost-cell Lorentz factors (both the perturbed and the
unperturbed one) are exactly the spec's closed-form inversion applied to
the corresponding `Psi`, with `Psi` the stated Bernoulli combination and
`k = gad/(gad-1)`; no iteration is involved. -/
theorem lorentz_closed_form (p : Params) (r z phi : ℝ) :
    gamma p r z phi =
      gammaClosedForm (Psi p r z phi) (gam_add p) p.p_amb (atwd_sm p r z) ∧
    gamma_np p r z =
      gammaClosedForm (Psi_np p r z) (gam_add p) p.p_amb (atwd_sm p r z) ∧
    Psi p r z phi =
      (atwd_sm p r z + Bphi_const p r z ^ 2) / bern_sm p r z phi ∧
    gam_add p = p.gad / (p.gad - 1) := by
  refine ⟨?_, ?_, ?_, rfl⟩
  · simp only [gamma, gammaClosedForm, pow_two]
  · simp only [gamma_np, gammaClosedForm, pow_two]
  · simp only [Psi, pow_two]

/-- C6: the ghost-cell density depends on the azimuthal angle exactly
through the smoothing weight evaluated at the perturbed mapped radius
`r0·(1 + dang·cos(mang·phi))`, while all three velocity components are
built from weights at the unperturbed mapped radius and are therefore
independent of the azimuthal angle. -/
theorem density_perturbed_velocity_axisymmetric (p : Params) (r z : ℝ) :
    (∀ phi : ℝ, rhoG p r z phi =
      rhoOfStep p r z (SmoothStep
        ((r0_r_z p r z * (1 + p.dang * Real.cos (phi * p.mang)) - p.r_jet) /
          p.dr_jet))) ∧
    (∀ phi₁ phi₂ : ℝ,
      (ghostPrim p r z phi₁).vx = (ghostPrim p r z phi₂).vx ∧
      (ghostPrim p r z phi₁).vy = (ghostPrim p r z phi₂).vy ∧
      (ghostPrim p r z phi₁).vz = (ghostPrim p r z phi₂).vz) := by
  constructor
  · intro phi
    simp only [rhoG, Psi, gamma, bern_sm, step, rad, pert, rhoOfStep]
  · intro phi₁ phi₂
    exact ⟨rfl, rfl, rfl⟩

/-- C8: the azimuthal face-centered field written by the boundary fill is
exactly zero at every ghost-zone face. -/
theorem azimuthal_face_field_zero (p : Params) (r z : ℝ) :
    bx2fGhost p r z = 0 := rfl

/-- C9: `SmoothStep` lies in `[0,1]`, is exactly `1` on `x ≤ -1`, exactly
`0` on `x ≥ 1`, and is antitone; consequently, for positive half-width the
blending weight `SmoothStep((r0 - r_jet)/dr_jet)` is `1` at or below
`r_jet - dr_jet` and `0` at or beyond `r_jet + dr_jet`. -/
theorem smoothstep_shape (p : Params) (hdr : 0 < p.dr_jet) (r0 : ℝ) :
    (∀ x : ℝ, SmoothStep x ∈ Set.Icc (0 : ℝ) 1) ∧
    (∀ x : ℝ, x ≤ -1 → SmoothStep x = 1) ∧
    (∀ x : ℝ, 1 ≤ x → SmoothStep x = 0) ∧
    Antitone SmoothStep ∧
    (r0 ≤ p.r_jet - p.dr_jet → SmoothStep ((r0 - p.r_jet) / p.dr_jet) = 1) ∧
    (p.r_jet + p.dr_jet ≤ r0 → SmoothStep ((r0 - p.r_jet) / p.dr_jet) = 0) := by
  have hone : ∀ x : ℝ, x ≤ -1 → SmoothStep x = 1 := by
    intro x hx
    have h1 : min x 1 = x := min_eq_left (by linarith)
    simp only [SmoothStep, h1, max_eq_right hx]
    norm_num
  have hzero : ∀ x : ℝ, 1 ≤ x → SmoothStep x = 0 := by
    intro x hx
    have h1 : min x 1 = 1 := min_eq_right hx
    have h2 : max (1 : ℝ) (-1) = 1 := max_eq_left (by norm_num)
    simp only [SmoothStep, h1, h2]
    norm_num
  refine ⟨?_, hone, hzero, ?_, ?_, ?_⟩
  · intro x
    set m := max (min x 1) (-1) with hm
    have hm1 : -1 ≤ m := le_max_right _ _
    have hm2 : m ≤ 1 := max_le (min_le_right x 1) (by norm_num)
    constructor
    · simp only [SmoothStep, ← hm]
      nlinarith [mul_nonneg (sq_nonneg (m - 1)) (show (0 : ℝ) ≤ m + 2 by linarith)]
    · simp only [SmoothStep, ← hm]
      nlinarith [mul_nonneg (sq_nonneg (m + 1)) (show (0 : ℝ) ≤ 2 - m by linarith)]
  · intro x y hxy
    set mx := max (min x 1) (-1) with hmx
    set my := max (min y 1) (-1) with hmy
    have hle : mx ≤ my := max_le_max (min_le_min hxy le_rfl) le_rfl
    have h1 : -1 ≤ mx := le_max_right _ _
    have h2 : my ≤ 1 := max_le (min_le_right y 1) (by norm_num)
    have h1' : mx ≤ 1 := hle.trans h2
    have h2' : -1 ≤ my := le_max_right _ _
    have hx2 : mx * mx ≤ 1 := by nlinarith
    have hy2 : my * my ≤ 1 := by nlinarith
    have hxy2 : mx * my ≤ 1 := by nlinarith
    have hfac : 0 ≤ (my - mx) * (3 - mx * mx - mx * my - my * my) :=
      mul_nonneg (by linarith) (by linarith)
    simp only [SmoothStep, ← hmx, ← hmy]
    nlinarith [hfac]
  · intro h
    exact hone _ (by rw [div_le_iff₀ hdr]; linarith)
  · intro h
    exact hzero _ ((le_div_iff₀ hdr).mpr (by linarith))

/-- Witness for `smoothstep_shape`: at the concrete parameters the weight
vanishes at `r0 = 3` beyond the band and equals one at `r0 = 1` below
it. -/
theorem smoothstep_shape_witness :
    0 < cp.dr_jet ∧ SmoothStep ((3 - cp.r_jet) / cp.dr_jet) = 0 ∧
      SmoothStep ((1 - cp.r_jet) / cp.dr_jet) = 1 :=
  ⟨by norm_num [cp],
   (smoothstep_shape cp (by norm_num [cp]) 3).2.2.2.2.2 (by norm_num [cp]),
   (smoothstep_shape cp (by norm_num [cp]) 1).2.2.2.2.1 (by norm_num [cp])⟩

/-! Infrastructure for the false-position loop of `r0_r_z`. -/

lemma tol_pos : (0 : ℝ) < tol := by norm_num [tol]

lemma eps_pos : (0 : ℝ) < eps := by norm_num [eps]

lemma rfIter_zero (F : ℝ → ℝ) (r1 r2 : ℝ) : rfIter F r1 r2 0 = (r1, r2) := rfl

lemma rfIter_succ (F : ℝ → ℝ) (r1 r2 : ℝ) (n : ℕ) :
    rfIter F r1 r2 (n + 1) = rfStep F (rfIter F r1 r2 n) :=
  Function.iterate_succ_apply' _ _ _

lemma r3At_def (F : ℝ → ℝ) (r1 r2 : ℝ) (n : ℕ) :
    r3At F r1 r2 n = secant F (r1Seq F r1 r2 n) (r2Seq F r1 r2 n) := rfl

/-- Evaluating `f` at axial position `0`: the exponential twist factor
vanishes, so `f(r_0, x1, 0) = r_0 - x1`. -/
lemma f_at_z0 (p : Params) (r_0 x1 : ℝ) : f p r_0 x1 0 = r_0 - x1 := by
  simp [f]

/-- The secant candidate of a strictly bracketing interval lies strictly
inside it (orientation `F r1 < 0 < F r2`). -/
lemma secant_mem (F : ℝ → ℝ) {r1 r2 : ℝ} (hlt : r1 < r2) (hneg : F r1 < 0)
    (hpos : 0 < F r2) : r1 < secant F r1 r2 ∧ secant F r1 r2 < r2 := by
  have hD : 0 < F r2 - F r1 := by linarith
  constructor
  · have he : secant F r1 r2 - r1 = -F r1 * (r2 - r1) / (F r2 - F r1) := by
      unfold secant; ring
    have hp : 0 < -F r1 * (r2 - r1) / (F r2 - F r1) :=
      div_pos (mul_pos (by linarith) (by linarith)) hD
    linarith [he ▸ hp]
  · have he : r2 - secant F r1 r2 = F r2 * (r2 - r1) / (F r2 - F r1) := by
      unfold secant
      field_simp
      ring
    have hp : 0 < F r2 * (r2 - r1) / (F r2 - F r1) :=
      div_pos (mul_pos hpos (by linarith)) hD
    linarith [he ▸ hp]

/-- One loop update either keeps `r1` and moves `r2` to the secant
candidate (when `f_mul < 0`), or moves `r1` to the candidate. -/
lemma rfStep_cases (F : ℝ → ℝ) (s : ℝ × ℝ) :
    (F s.1 * F (secant F s.1 s.2) < 0 ∧ rfStep F s = (s.1, secant F s.1 s.2)) ∨
    (0 ≤ F s.1 * F (secant F s.1 s.2) ∧ rfStep F s = (secant F s.1 s.2, s.2)) := by
  simp only [rfStep]
  split_ifs with h
  · exact Or.inl ⟨h, rfl⟩
  · exact Or.inr ⟨le_of_not_lt h, rfl⟩

/-- `rfStep_cases` read through the iterated bracket sequences. -/
lemma rfIter_cases (F : ℝ → ℝ) (r1 r2 : ℝ) (n : ℕ) :
    (F (r1Seq F r1 r2 n) * F (r3At F r1 r2 n) < 0 ∧
      r1Seq F r1 r2 (n + 1) = r1Seq F r1 r2 n ∧
      r2Seq F r1 r2 (n + 1) = r3At F r1 r2 n) ∨
    (0 ≤ F (r1Seq F r1 r2 n) * F (r3At F r1 r2 n) ∧
      r1Seq F r1 r2 (n + 1) = r3At F r1 r2 n ∧
      r2Seq F r1 r2 (n + 1) = r2Seq F r1 r2 n) := by
  rcases rfStep_cases F (rfIter F r1 r2 n) with ⟨hc, he⟩ | ⟨hc, he⟩
  · refine Or.inl ⟨hc, ?_, ?_⟩ <;>
      simp only [r1Seq, r2Seq, rfIter_succ, he, r3At]
  · refine Or.inr ⟨hc, ?_, ?_⟩ <;>
      simp only [r1Seq, r2Seq, rfIter_succ, he, r3At]

/-- Bracket invariant of the loop (orientation `F r1 < 0 < F r2`): as long
as no break has fired, the bracket stays inside the initial one, keeps its
orientation, and `F` keeps strictly opposite signs at its endpoints. -/
lemma rfIter_inv (F : ℝ → ℝ) {r1 r2 : ℝ} (hlt : r1 < r2) (hneg : F r1 < 0)
    (hpos : 0 < F r2) (n : ℕ)
    (hnb : ∀ k < n, tol ≤ |F (r3At F r1 r2 k)|) :
    r1 ≤ r1Seq F r1 r2 n ∧ r2Seq F r1 r2 n ≤ r2 ∧
      r1Seq F r1 r2 n < r2Seq F r1 r2 n ∧
      F (r1Seq F r1 r2 n) < 0 ∧ 0 < F (r2Seq F r1 r2 n) := by
  induction n with
  | zero => exact ⟨le_refl _, le_refl _, hlt, hneg, hpos⟩
  | succ n ih =>
    obtain ⟨ih1, ih2, ih3, ih4, ih5⟩ :=
      ih (fun k hk => hnb k (hk.trans (Nat.lt_succ_self n)))
    have htol := hnb n (Nat.lt_succ_self n)
    have hmem : r1Seq F r1 r2 n < r3At F r1 r2 n ∧
        r3At F r1 r2 n < r2Seq F r1 r2 n := by
      rw [r3At_def]
      exact secant_mem F ih3 ih4 ih5
    rcases rfIter_cases F r1 r2 n with ⟨hc, he1, he2⟩ | ⟨hc, he1, he2⟩
    · have hr3pos : 0 < F (r3At F r1 r2 n) := by nlinarith
      rw [he1, he2]
      exact ⟨ih1, le_of_lt (lt_of_lt_of_le hmem.2 ih2), hmem.1, ih4, hr3pos⟩
    · have hne : F (r3At F r1 r2 n) ≠ 0 := by
        intro h0
        rw [h0, abs_zero] at htol
        exact absurd htol (not_le.mpr tol_pos)
      have hr3neg : F (r3At F r1 r2 n) < 0 := by
        rcases lt_or_gt_of_ne hne with h | h
        · exact h
        · nlinarith
      rw [he1, he2]
      exact ⟨le_of_lt (lt_of_le_of_lt ih1 hmem.1), ih2, hmem.2, hr3neg, ih5⟩

/-- Sign invariant of the loop with no orientation assumption: while no
break has fired, `F` keeps strictly opposite signs at the two bracket
endpoints. -/
lemma rfIter_sign (F : ℝ → ℝ) (r1 r2 : ℝ) (hsign : F r1 * F r2 < 0) (n : ℕ)
    (hnb : ∀ k < n, tol ≤ |F (r3At F r1 r2 k)|) :
    F (r1Seq F r1 r2 n) * F (r2Seq F r1 r2 n) < 0 := by
  induction n with
  | zero => exact hsign
  | succ n ih =>
    have ihn := ih (fun k hk => hnb k (hk.trans (Nat.lt_succ_self n)))
    have htol := hnb n (Nat.lt_succ_self n)
    have hne : F (r3At F r1 r2 n) ≠ 0 := by
      intro h0
      rw [h0, abs_zero] at htol
      exact absurd htol (not_le.mpr tol_pos)
    have hs1 : F (r1Seq F r1 r2 n) ≠ 0 := by
      intro h0
      rw [h0, zero_mul] at ihn
      exact lt_irrefl 0 ihn
    rcases rfIter_cases F r1 r2 n with ⟨hc, he1, he2⟩ | ⟨hc, he1, he2⟩
    · rw [he1, he2]
      exact hc
    · rw [he1, he2]
      have hpos : 0 < F (r1Seq F r1 r2 n) * F (r3At F r1 r2 n) :=
        lt_of_le_of_ne hc (fun h => (mul_ne_zero hs1 hne) h.symm)
      have hsq : 0 < F (r1Seq F r1 r2 n) * F (r1Seq F r1 r2 n) :=
        mul_self_pos.mpr hs1
      nlinarith [mul_neg_of_pos_of_neg hpos ihn]

/-- If `F` has strictly opposite signs at two points, the denominator of
the secant update is nonzero. -/
lemma denom_ne_zero {x y : ℝ} (h : x * y < 0) : y - x ≠ 0 := by
  intro he
  have : y = x := by linarith [sub_eq_zero.mp he]
  rw [this] at h
  exact absurd h (not_lt.mpr (mul_self_nonneg x))

/-- C10: in the root-solve loop of `r0_r_z`, if `f` has strictly opposite
signs at the two initial bracket endpoints and neither satisfies the break
tolerance, then as long as no later break has fired the bracket endpoints
keep strictly opposite signs of `f`, and the secant denominator
`f(r2) - f(r1)` is nonzero, so the division in the update never divides by
zero. -/
theorem false_position_sign_invariant (p : Params) (x1 x3 : ℝ) (n : ℕ)
    (hsign : f p p.x1min x1 x3 * f p (p.r_jet + p.dr_jet) x1 x3 < 0)
    (h1 : tol ≤ |f p p.x1min x1 x3|)
    (h2 : tol ≤ |f p (p.r_jet + p.dr_jet) x1 x3|)
    (hnb : ∀ k < n, tol ≤
      |f p (r3At (fun r => f p r x1 x3) p.x1min (p.r_jet + p.dr_jet) k) x1 x3|) :
    f p (r1Seq (fun r => f p r x1 x3) p.x1min (p.r_jet + p.dr_jet) n) x1 x3 *
        f p (r2Seq (fun r => f p r x1 x3) p.x1min (p.r_jet + p.dr_jet) n) x1 x3 < 0 ∧
      f p (r2Seq (fun r => f p r x1 x3) p.x1min (p.r_jet + p.dr_jet) n) x1 x3 -
        f p (r1Seq (fun r => f p r x1 x3) p.x1min (p.r_jet + p.dr_jet) n) x1 x3 ≠ 0 := by
  have hs := rfIter_sign (fun r => f p r x1 x3) p.x1min (p.r_jet + p.dr_jet) hsign n hnb
  exact ⟨hs, denom_ne_zero hs⟩

/-- Witness for `false_position_sign_invariant` at the concrete
parameters, query `(x1, x3) = (2, 0)` and iteration `n = 0`: the endpoint
values of `f` are `-1` and `1/2`. -/
theorem false_position_sign_invariant_witness :
    f cp cp.x1min 2 0 * f cp (cp.r_jet + cp.dr_jet) 2 0 < 0 ∧
    f cp (r1Seq (fun r => f cp r 2 0) cp.x1min (cp.r_jet + cp.dr_jet) 0) 2 0 *
        f cp (r2Seq (fun r => f cp r 2 0) cp.x1min (cp.r_jet + cp.dr_jet) 0) 2 0 < 0 := by
  have hsign : f cp cp.x1min 2 0 * f cp (cp.r_jet + cp.dr_jet) 2 0 < 0 := by
    rw [f_at_z0, f_at_z0]
    norm_num [cp]
  have h1 : tol ≤ |f cp cp.x1min 2 0| := by
    rw [f_at_z0]
    rw [show cp.x1min - 2 = (-1 : ℝ) by norm_num [cp]]
    norm_num [tol]
  have h2 : tol ≤ |f cp (cp.r_jet + cp.dr_jet) 2 0| := by
    rw [f_at_z0]
    rw [show cp.r_jet + cp.dr_jet - 2 = (1 / 2 : ℝ) by norm_num [cp],
      abs_of_pos (by norm_num : (0 : ℝ) < 1 / 2)]
    norm_num [tol]
  exact ⟨hsign,
    (false_position_sign_invariant cp 2 0 0 hsign h1 h2
      (fun k hk => absurd hk (Nat.not_lt_zero k))).1⟩

/-! Negating `F` leaves the false-position loop unchanged: the secant
candidate and the branch condition are invariant under `F ↦ -F`.  This
gives the orientation symmetry used to reduce the general bracketing case
to `F r1 < 0 < F r2`. -/

lemma secant_neg (F : ℝ → ℝ) (r1 r2 : ℝ) :
    secant (fun x => -F x) r1 r2 = secant F r1 r2 := by
  simp only [secant]
  rw [show -F r2 - -F r1 = -(F r2 - F r1) by ring, neg_mul, neg_div_neg_eq]

lemma rfStep_neg (F : ℝ → ℝ) : rfStep (fun x => -F x) = rfStep F := by
  funext s
  simp only [rfStep, secant_neg, neg_mul_neg]

lemma rfIter_neg (F : ℝ → ℝ) (r1 r2 : ℝ) (n : ℕ) :
    rfIter (fun x => -F x) r1 r2 n = rfIter F r1 r2 n := by
  unfold rfIter
  rw [rfStep_neg]

lemma r3At_neg (F : ℝ → ℝ) (r1 r2 : ℝ) (n : ℕ) :
    r3At (fun x => -F x) r1 r2 n = r3At F r1 r2 n := by
  unfold r3At
  rw [rfIter_neg, secant_neg]

lemma rfExit_neg (F : ℝ → ℝ) (r1 r2 : ℝ) (n : ℕ) :
    rfExit (fun x => -F x) r1 r2 n ↔ rfExit F r1 r2 n := by
  unfold rfExit
  rw [r3At_neg, rfIter_neg, abs_neg]

lemma rfTerminates_neg (F : ℝ → ℝ) (r1 r2 : ℝ) :
    rfTerminates (fun x => -F x) r1 r2 ↔ rfTerminates F r1 r2 :=
  exists_congr (fun n => rfExit_neg F r1 r2 n)

/-- `SmoothStep` is continuous (clamped polynomial). -/
lemma continuous_SmoothStep : Continuous SmoothStep := by
  have h : Continuous fun x : ℝ => max (min x 1) (-1) :=
    (continuous_id.min continuous_const).max continuous_const
  simpa only [SmoothStep] using
    (continuous_const.sub ((h.mul (continuous_const.sub (h.mul h))).div_const 4))

/-- The field-line relation `f` is continuous in its first argument. -/
lemma continuous_f (p : Params) (x1 x3 : ℝ) :
    Continuous fun r : ℝ => f p r x1 x3 := by
  have h1 : Continuous fun r : ℝ => SmoothStep ((r - p.r_jet) / p.dr_jet) :=
    continuous_SmoothStep.comp ((continuous_id.sub continuous_const).div_const _)
  have h2 : Continuous fun r : ℝ => rang p r := by
    unfold rang
    exact (((continuous_const.mul h1).add continuous_const).mul
      (continuous_id.sub continuous_const)).div_const _
  unfold f
  exact (continuous_id.add ((h2.mul continuous_const).mul continuous_const)).sub
    continuous_const

/-- Termination of the false-position loop in the oriented case
`F r1 < 0 < F r2` for continuous `F`: were the loop never to exit, the
bracket endpoints would converge monotonically while staying at least
`eps` apart and all candidate values of `F` would stay at least `tol` in
magnitude, which contradicts the secant formula in the limit. -/
lemma rf_terminates_oriented (F : ℝ → ℝ) (hF : Continuous F) {r1 r2 : ℝ}
    (hlt : r1 < r2) (hneg : F r1 < 0) (hpos : 0 < F r2) :
    rfTerminates F r1 r2 := by
  by_contra hNT
  rw [rfTerminates] at hNT
  push_neg at hNT
  have hnb : ∀ n, tol ≤ |F (r3At F r1 r2 n)| := by
    intro n
    have h := hNT n
    rw [rfExit] at h
    push_neg at h
    exact h.1
  have hw : ∀ n, eps < |(rfIter F r1 r2 n).1 - (rfIter F r1 r2 n).2| := by
    intro n
    have h := hNT n
    rw [rfExit] at h
    push_neg at h
    exact h.2
  have hinv : ∀ n, r1 ≤ r1Seq F r1 r2 n ∧ r2Seq F r1 r2 n ≤ r2 ∧
      r1Seq F r1 r2 n < r2Seq F r1 r2 n ∧
      F (r1Seq F r1 r2 n) < 0 ∧ 0 < F (r2Seq F r1 r2 n) :=
    fun n => rfIter_inv F hlt hneg hpos n (fun k _ => hnb k)
  have hwid : ∀ n, eps < r2Seq F r1 r2 n - r1Seq F r1 r2 n := by
    intro n
    have h := hw n
    rwa [show (rfIter F r1 r2 n).1 = r1Seq F r1 r2 n from rfl,
      show (rfIter F r1 r2 n).2 = r2Seq F r1 r2 n from rfl, abs_sub_comm,
      abs_of_pos (sub_pos.mpr (hinv n).2.2.1)] at h
  have hmono : Monotone (r1Seq F r1 r2) := by
    apply monotone_nat_of_le_succ
    intro n
    rcases rfIter_cases F r1 r2 n with ⟨-, he1, -⟩ | ⟨-, he1, -⟩
    · rw [he1]
    · rw [he1, r3At_def]
      exact le_of_lt (secant_mem F (hinv n).2.2.1 (hinv n).2.2.2.1 (hinv n).2.2.2.2).1
  have hanti : Antitone (r2Seq F r1 r2) := by
    apply antitone_nat_of_succ_le
    intro n
    rcases rfIter_cases F r1 r2 n with ⟨-, -, he2⟩ | ⟨-, -, he2⟩
    · rw [he2, r3At_def]
      exact le_of_lt (secant_mem F (hinv n).2.2.1 (hinv n).2.2.2.1 (hinv n).2.2.2.2).2
    · rw [he2]
  have hbddA : BddAbove (Set.range (r1Seq F r1 r2)) := by
    refine ⟨r2, ?_⟩
    rintro y ⟨n, rfl⟩
    exact le_of_lt (lt_of_lt_of_le (hinv n).2.2.1 (hinv n).2.1)
  have hbddB : BddBelow (Set.range (r2Seq F r1 r2)) := by
    refine ⟨r1, ?_⟩
    rintro y ⟨n, rfl⟩
    exact (hinv n).1.trans (le_of_lt (hinv n).2.2.1)
  have hT1 : Filter.Tendsto (r1Seq F r1 r2) Filter.atTop
      (nhds (⨆ n, r1Seq F r1 r2 n)) := tendsto_atTop_ciSup hmono hbddA
  have hT2 : Filter.Tendsto (r2Seq F r1 r2) Filter.atTop
      (nhds (⨅ n, r2Seq F r1 r2 n)) := tendsto_atTop_ciInf hanti hbddB
  have hL2L1 : eps ≤ (⨅ n, r2Seq F r1 r2 n) - (⨆ n, r1Seq F r1 r2 n) :=
    ge_of_tendsto (hT2.sub hT1)
      (Filter.Eventually.of_forall (fun n => le_of_lt (hwid n)))
  have hFL1 : Filter.Tendsto (fun n => F (r1Seq F r1 r2 n)) Filter.atTop
      (nhds (F (⨆ n, r1Seq F r1 r2 n))) :=
    (hF.tendsto _).comp hT1
  have hFL2 : Filter.Tendsto (fun n => F (r2Seq F r1 r2 n)) Filter.atTop
      (nhds (F (⨅ n, r2Seq F r1 r2 n))) :=
    (hF.tendsto _).comp hT2
  have hFL1np : F (⨆ n, r1Seq F r1 r2 n) ≤ 0 :=
    le_of_tendsto hFL1
      (Filter.Eventually.of_forall (fun n => le_of_lt (hinv n).2.2.2.1))
  have hFL2nn : 0 ≤ F (⨅ n, r2Seq F r1 r2 n) :=
    ge_of_tendsto hFL2
      (Filter.Eventually.of_forall (fun n => le_of_lt (hinv n).2.2.2.2))
  have hfreq : (∃ᶠ n in Filter.atTop, r1Seq F r1 r2 (n + 1) = r3At F r1 r2 n) ∨
      (∃ᶠ n in Filter.atTop, r2Seq F r1 r2 (n + 1) = r3At F r1 r2 n) := by
    by_contra hcon
    push_neg at hcon
    obtain ⟨hA, hB⟩ := hcon
    rw [Filter.not_frequently] at hA hB
    obtain ⟨n, hn1, hn2⟩ := (hA.and hB).exists
    rcases rfIter_cases F r1 r2 n with ⟨-, -, he⟩ | ⟨-, he, -⟩
    · exact hn2 he
    · exact hn1 he
  have hDpos_of : ∀ hc : tol ≤ -F (⨆ n, r1Seq F r1 r2 n) ∨
      tol ≤ F (⨅ n, r2Seq F r1 r2 n),
      0 < F (⨅ n, r2Seq F r1 r2 n) - F (⨆ n, r1Seq F r1 r2 n) := by
    rintro (hc | hc) <;> nlinarith [tol_pos]
  rcases hfreq with hfr | hfr
  · -- the left endpoint is updated infinitely often
    obtain ⟨φ, hφ, hφP⟩ := Filter.extraction_of_frequently_atTop hfr
    have hφt : Filter.Tendsto φ Filter.atTop Filter.atTop := hφ.tendsto_atTop
    have hφt1 : Filter.Tendsto (fun k => φ k + 1) Filter.atTop Filter.atTop :=
      Filter.tendsto_atTop_mono (fun k => Nat.le_succ (φ k)) hφt
    have t1 : Filter.Tendsto (fun k => r1Seq F r1 r2 (φ k)) Filter.atTop
        (nhds (⨆ n, r1Seq F r1 r2 n)) := hT1.comp hφt
    have t2 : Filter.Tendsto (fun k => r2Seq F r1 r2 (φ k)) Filter.atTop
        (nhds (⨅ n, r2Seq F r1 r2 n)) := hT2.comp hφt
    have tF1 : Filter.Tendsto (fun k => F (r1Seq F r1 r2 (φ k))) Filter.atTop
        (nhds (F (⨆ n, r1Seq F r1 r2 n))) := (hF.tendsto _).comp t1
    have tF2 : Filter.Tendsto (fun k => F (r2Seq F r1 r2 (φ k))) Filter.atTop
        (nhds (F (⨅ n, r2Seq F r1 r2 n))) := (hF.tendsto _).comp t2
    have h0 : Filter.Tendsto (fun k => r1Seq F r1 r2 (φ k + 1)) Filter.atTop
        (nhds (⨆ n, r1Seq F r1 r2 n)) := hT1.comp hφt1
    have hsub : Filter.Tendsto (fun k => r3At F r1 r2 (φ k)) Filter.atTop
        (nhds (⨆ n, r1Seq F r1 r2 n)) :=
      Filter.Tendsto.congr (fun k => hφP k) h0
    have hbd : ∀ k, F (r3At F r1 r2 (φ k)) ≤ -tol := by
      intro k
      have hneg' : F (r3At F r1 r2 (φ k)) < 0 := by
        rw [← hφP k]
        exact (hinv (φ k + 1)).2.2.2.1
      have habs := hnb (φ k)
      rw [abs_of_neg hneg'] at habs
      linarith
    have hFr3 : Filter.Tendsto (fun k => F (r3At F r1 r2 (φ k))) Filter.atTop
        (nhds (F (⨆ n, r1Seq F r1 r2 n))) := (hF.tendsto _).comp hsub
    have hFtol : tol ≤ -F (⨆ n, r1Seq F r1 r2 n) :=
      ge_of_tendsto hFr3.neg (Filter.Eventually.of_forall
        (fun k => show tol ≤ -F (r3At F r1 r2 (φ k)) by linarith [hbd k]))
    have hD : 0 < F (⨅ n, r2Seq F r1 r2 n) - F (⨆ n, r1Seq F r1 r2 n) :=
      hDpos_of (Or.inl hFtol)
    have tsec : Filter.Tendsto (fun k => r3At F r1 r2 (φ k)) Filter.atTop
        (nhds ((⨆ n, r1Seq F r1 r2 n) -
          F (⨆ n, r1Seq F r1 r2 n) *
            ((⨅ n, r2Seq F r1 r2 n) - (⨆ n, r1Seq F r1 r2 n)) /
            (F (⨅ n, r2Seq F r1 r2 n) - F (⨆ n, r1Seq F r1 r2 n)))) := by
      refine Filter.Tendsto.congr (fun k => ?_)
        (t1.sub ((tF1.mul (t2.sub t1)).div (tF2.sub tF1) hD.ne'))
      rw [r3At_def, secant]
      rfl
    have hun := tendsto_nhds_unique hsub tsec
    have hq : F (⨆ n, r1Seq F r1 r2 n) *
        ((⨅ n, r2Seq F r1 r2 n) - (⨆ n, r1Seq F r1 r2 n)) /
        (F (⨅ n, r2Seq F r1 r2 n) - F (⨆ n, r1Seq F r1 r2 n)) = 0 := by
      linarith
    rw [div_eq_zero_iff] at hq
    rcases hq with hq | hq
    · have hlt0 : F (⨆ n, r1Seq F r1 r2 n) *
          ((⨅ n, r2Seq F r1 r2 n) - (⨆ n, r1Seq F r1 r2 n)) < 0 :=
        mul_neg_of_neg_of_pos (by linarith [tol_pos]) (by linarith [eps_pos])
      exact absurd hq (ne_of_lt hlt0)
    · exact absurd hq hD.ne'
  · -- the right endpoint is updated infinitely often
    obtain ⟨φ, hφ, hφP⟩ := Filter.extraction_of_frequently_atTop hfr
    have hφt : Filter.Tendsto φ Filter.atTop Filter.atTop := hφ.tendsto_atTop
    have hφt1 : Filter.Tendsto (fun k => φ k + 1) Filter.atTop Filter.atTop :=
      Filter.tendsto_atTop_mono (fun k => Nat.le_succ (φ k)) hφt
    have t1 : Filter.Tendsto (fun k => r1Seq F r1 r2 (φ k)) Filter.atTop
        (nhds (⨆ n, r1Seq F r1 r2 n)) := hT1.comp hφt
    have t2 : Filter.Tendsto (fun k => r2Seq F r1 r2 (φ k)) Filter.atTop
        (nhds (⨅ n, r2Seq F r1 r2 n)) := hT2.comp hφt
    have tF1 : Filter.Tendsto (fun k => F (r1Seq F r1 r2 (φ k))) Filter.atTop
        (nhds (F (⨆ n, r1Seq F r1 r2 n))) := (hF.tendsto _).comp t1
    have tF2 : Filter.Tendsto (fun k => F (r2Seq F r1 r2 (φ k))) Filter.atTop
        (nhds (F (⨅ n, r2Seq F r1 r2 n))) := (hF.tendsto _).comp t2
    have h0 : Filter.Tendsto (fun k => r2Seq F r1 r2 (φ k + 1)) Filter.atTop
        (nhds (⨅ n, r2Seq F r1 r2 n)) := hT2.comp hφt1
    have hsub : Filter.Tendsto (fun k => r3At F r1 r2 (φ k)) Filter.atTop
        (nhds (⨅ n, r2Seq F r1 r2 n)) :=
      Filter.Tendsto.congr (fun k => hφP k) h0
    have hbd : ∀ k, tol ≤ F (r3At F r1 r2 (φ k)) := by
      intro k
      have hpos' : 0 < F (r3At F r1 r2 (φ k)) := by
        rw [← hφP k]
        exact (hinv (φ k + 1)).2.2.2.2
      have habs := hnb (φ k)
      rwa [abs_of_pos hpos'] at habs
    have hFr3 : Filter.Tendsto (fun k => F (r3At F r1 r2 (φ k))) Filter.atTop
        (nhds (F (⨅ n, r2Seq F r1 r2 n))) := (hF.tendsto _).comp hsub
    have hFtol : tol ≤ F (⨅ n, r2Seq F r1 r2 n) :=
      ge_of_tendsto hFr3 (Filter.Eventually.of_forall hbd)
    have hD : 0 < F (⨅ n, r2Seq F r1 r2 n) - F (⨆ n, r1Seq F r1 r2 n) :=
      hDpos_of (Or.inr hFtol)
    have tsec : Filter.Tendsto (fun k => r3At F r1 r2 (φ k)) Filter.atTop
        (nhds ((⨆ n, r1Seq F r1 r2 n) -
          F (⨆ n, r1Seq F r1 r2 n) *
            ((⨅ n, r2Seq F r1 r2 n) - (⨆ n, r1Seq F r1 r2 n)) /
            (F (⨅ n, r2Seq F r1 r2 n) - F (⨆ n, r1Seq F r1 r2 n)))) := by
      refine Filter.Tendsto.congr (fun k => ?_)
        (t1.sub ((tF1.mul (t2.sub t1)).div (tF2.sub tF1) hD.ne'))
      rw [r3At_def, secant]
      rfl
    have hun := tendsto_nhds_unique hsub tsec
    have hq : F (⨆ n, r1Seq F r1 r2 n) *
        ((⨅ n, r2Seq F r1 r2 n) - (⨆ n, r1Seq F r1 r2 n)) /
        (F (⨅ n, r2Seq F r1 r2 n) - F (⨆ n, r1Seq F r1 r2 n)) =
        (⨆ n, r1Seq F r1 r2 n) - (⨅ n, r2Seq F r1 r2 n) := by
      linarith
    rw [div_eq_iff hD.ne'] at hq
    have hzero : ((⨅ n, r2Seq F r1 r2 n) - (⨆ n, r1Seq F r1 r2 n)) *
        F (⨅ n, r2Seq F r1 r2 n) = 0 := by
      linear_combination hq
    have hgt : ((⨅ n, r2Seq F r1 r2 n) - (⨆ n, r1Seq F r1 r2 n)) *
        F (⨅ n, r2Seq F r1 r2 n) > 0 :=
      mul_pos (by linarith [eps_pos]) (by linarith [tol_pos])
    exact absurd hzero (ne_of_gt hgt)

/-- Termination of the false-position loop for continuous `F` with
strictly opposite signs at the initial bracket endpoints, in either
orientation. -/
lemma rf_terminates_of_sign (F : ℝ → ℝ) (hF : Continuous F) {r1 r2 : ℝ}
    (hlt : r1 < r2) (hsign : F r1 * F r2 < 0) : rfTerminates F r1 r2 := by
  have h1ne : F r1 ≠ 0 := by
    intro h0
    rw [h0, zero_mul] at hsign
    exact lt_irrefl 0 hsign
  rcases lt_or_gt_of_ne h1ne with hneg | hpos
  · have h2pos : 0 < F r2 := by nlinarith
    exact rf_terminates_oriented F hF hlt hneg h2pos
  · have h2neg : F r2 < 0 := by nlinarith
    have hterm := rf_terminates_oriented (fun x => -F x) hF.neg hlt
      (show -F r1 < 0 by linarith) (show 0 < -F r2 by linarith)
    rwa [rfTerminates_neg] at hterm

/-- The secant candidate of any iteration stays inside the initial
bracket while no break has fired, in either orientation. -/
lemma r3At_mem (F : ℝ → ℝ) {r1 r2 : ℝ} (hlt : r1 < r2)
    (hsign : F r1 * F r2 < 0) (n : ℕ)
    (hnb : ∀ k < n, tol ≤ |F (r3At F r1 r2 k)|) :
    r1 ≤ r3At F r1 r2 n ∧ r3At F r1 r2 n ≤ r2 := by
  have h1ne : F r1 ≠ 0 := by
    intro h0
    rw [h0, zero_mul] at hsign
    exact lt_irrefl 0 hsign
  rcases lt_or_gt_of_ne h1ne with hneg | hpos
  · have h2pos : 0 < F r2 := by nlinarith
    obtain ⟨i1, i2, i3, i4, i5⟩ := rfIter_inv F hlt hneg h2pos n hnb
    have hmem : r1Seq F r1 r2 n < r3At F r1 r2 n ∧
        r3At F r1 r2 n < r2Seq F r1 r2 n := by
      rw [r3At_def]
      exact secant_mem F i3 i4 i5
    exact ⟨le_of_lt (lt_of_le_of_lt i1 hmem.1), le_of_lt (lt_of_lt_of_le hmem.2 i2)⟩
  · have h2neg : F r2 < 0 := by nlinarith
    have hnb' : ∀ k < n, tol ≤ |(fun x => -F x) (r3At (fun x => -F x) r1 r2 k)| := by
      intro k hk
      rw [r3At_neg]
      simpa [abs_neg] using hnb k hk
    obtain ⟨i1, i2, i3, i4, i5⟩ := rfIter_inv (fun x => -F x) hlt
      (show (fun x => -F x) r1 < 0 by simpa using hpos)
      (show 0 < (fun x => -F x) r2 by simpa using h2neg) n hnb'
    have hmem : r1Seq (fun x => -F x) r1 r2 n < r3At (fun x => -F x) r1 r2 n ∧
        r3At (fun x => -F x) r1 r2 n < r2Seq (fun x => -F x) r1 r2 n := by
      rw [r3At_def]
      exact secant_mem (fun x => -F x) i3 i4 i5
    rw [r3At_neg] at hmem
    refine ⟨le_of_lt (lt_of_le_of_lt i1 hmem.1), le_of_lt (lt_of_lt_of_le hmem.2 i2)⟩

open Classical in
/-- The value returned by the false-position loop lies inside the initial
bracket, given strictly opposite signs at its endpoints. -/
lemma rfSolve_mem (F : ℝ → ℝ) (hF : Continuous F) {r1 r2 : ℝ} (hlt : r1 < r2)
    (hsign : F r1 * F r2 < 0) : rfSolve F r1 r2 ∈ Set.Icc r1 r2 := by
  have hterm : rfTerminates F r1 r2 := rf_terminates_of_sign F hF hlt hsign
  rw [rfSolve, dif_pos hterm]
  have hnb : ∀ k < Nat.find hterm, tol ≤ |F (r3At F r1 r2 k)| := by
    intro k hk
    have h := Nat.find_min hterm hk
    rw [rfExit] at h
    push_neg at h
    exact h.1
  exact r3At_mem F hlt hsign (Nat.find hterm) hnb

/-- C2: for a query in the mapping regime whose implicit relation `f` has
strictly opposite signs at the two initial bracket endpoints, the
false-position loop of `r0_r_z` terminates: some iteration satisfies the
break tolerance or shrinks the bracket width below `eps`. -/
theorem false_position_terminates (p : Params) (x1 x3 : ℝ)
    (hx1 : p.x1min < x1) (hx2 : x1 < p.r_jet + p.dr_jet)
    (hsign : f p p.x1min x1 x3 * f p (p.r_jet + p.dr_jet) x1 x3 < 0) :
    rfTerminates (fun r => f p r x1 x3) p.x1min (p.r_jet + p.dr_jet) :=
  rf_terminates_of_sign _ (continuous_f p x1 x3) (hx1.trans hx2) hsign

/-- Witness for `false_position_terminates`: at the concrete parameters
and query `(x1, x3) = (2, 0)` the bracket endpoints give `f = -1` and
`f = 1/2`, and the loop terminates. -/
theorem false_position_terminates_witness :
    cp.x1min < 2 ∧ (2 : ℝ) < cp.r_jet + cp.dr_jet ∧
      rfTerminates (fun r => f cp r 2 0) cp.x1min (cp.r_jet + cp.dr_jet) :=
  ⟨by norm_num [cp], by norm_num [cp],
   false_position_terminates cp 2 0 (by norm_num [cp]) (by norm_num [cp])
     (by rw [f_at_z0, f_at_z0]; norm_num [cp])⟩

/-- C3: for a query in the mapping regime whose implicit relation has
strictly opposite signs at the two initial bracket endpoints, the source
radius returned by `r0_r_z` lies in the closed bracket
`[x1min, r_jet + dr_jet]`. -/
theorem source_radius_in_bracket (p : Params) (x1 x3 : ℝ)
    (hx1 : p.x1min < x1) (hx2 : x1 < p.r_jet + p.dr_jet)
    (hsign : f p p.x1min x1 x3 * f p (p.r_jet + p.dr_jet) x1 x3 < 0) :
    r0_r_z p x1 x3 ∈ Set.Icc p.x1min (p.r_jet + p.dr_jet) := by
  have hlt : p.x1min < p.r_jet + p.dr_jet := hx1.trans hx2
  rw [r0_r_z, if_pos ⟨hx2, hx1⟩]
  split_ifs with h1 h2
  · exact ⟨le_refl _, le_of_lt hlt⟩
  · exact ⟨le_of_lt hlt, le_refl _⟩
  · exact rfSolve_mem _ (continuous_f p x1 x3) hlt hsign

/-- Witness for `source_radius_in_bracket` at the concrete parameters and
query `(x1, x3) = (2, 0)`. -/
theorem source_radius_in_bracket_witness :
    r0_r_z cp 2 0 ∈ Set.Icc cp.x1min (cp.r_jet + cp.dr_jet) :=
  source_radius_in_bracket cp 2 0 (by norm_num [cp]) (by norm_num [cp])
    (by rw [f_at_z0, f_at_z0]; norm_num [cp])

/-! Differentiability of the flux regimes. -/

lemma a_sq_add_pos (p : Params) (ha : a p ≠ 0) (x : ℝ) :
    0 < a p * a p + x * x := by
  have h1 : 0 < a p * a p := mul_self_pos.mpr ha
  nlinarith [mul_self_nonneg x]

lemma hasDerivAt_sq_add (p : Params) (x : ℝ) :
    HasDerivAt (fun y : ℝ => a p * a p + y * y) (1 * x + x * 1) x :=
  ((hasDerivAt_id x).mul (hasDerivAt_id x)).const_add (a p * a p)

lemma hasDerivAt_fintg1 (p : Params) (ha : a p ≠ 0) (x : ℝ) :
    HasDerivAt (fintg1 p) (Dfintg1 p x) x := by
  have hpos := a_sq_add_pos p ha x
  have h := ((hasDerivAt_sq_add p x).log hpos.ne').const_mul
    (p.b_0 * (a p * a p / 2))
  have he : p.b_0 * (a p * a p / 2) * ((1 * x + x * 1) / (a p * a p + x * x)) =
      Dfintg1 p x := by
    rw [Dfintg1]
    field_simp
    ring
  rw [he] at h
  exact h

lemma hasDerivAt_fintg2 (p : Params) (ha : a p ≠ 0) (x : ℝ) :
    HasDerivAt (fintg2 p) (Dfintg2 p x) x := by
  have hpos := a_sq_add_pos p ha x
  have h1ne : (1 : ℝ) + (x / a p) ^ 2 ≠ 0 := by positivity
  have hP : HasDerivAt
      (fun y : ℝ => y * (-6 * a p * a p - 18 * p.dr_jet * p.dr_jet +
        18 * p.r_jet * p.r_jet - 9 * p.r_jet * y + 2 * y * y))
      (1 * (-6 * a p * a p - 18 * p.dr_jet * p.dr_jet + 18 * p.r_jet * p.r_jet -
        9 * p.r_jet * x + 2 * x * x) +
        x * (0 - 9 * p.r_jet * 1 + (2 * 1 * x + 2 * x * 1))) x :=
    (hasDerivAt_id x).mul
      (((hasDerivAt_const x (-6 * a p * a p - 18 * p.dr_jet * p.dr_jet +
          18 * p.r_jet * p.r_jet)).sub
        ((hasDerivAt_id x).const_mul (9 * p.r_jet))).add
        (((hasDerivAt_id x).const_mul 2).mul (hasDerivAt_id x)))
  have harc : HasDerivAt (fun y : ℝ => Real.arctan (y / a p))
      (1 / (1 + (x / a p) ^ 2) * (1 / a p)) x :=
    (Real.hasDerivAt_arctan (x / a p)).comp x ((hasDerivAt_id x).div_const (a p))
  have harc2 := harc.const_mul
    (6 * a p * (a p * a p + 3 * p.dr_jet * p.dr_jet - 3 * p.r_jet * p.r_jet))
  have hlog := ((hasDerivAt_sq_add p x).log hpos.ne').const_mul
    (9 * p.r_jet * a p * a p + 6 * p.dr_jet * p.dr_jet * p.dr_jet +
      9 * p.r_jet * p.dr_jet * p.dr_jet - 3 * p.r_jet * p.r_jet * p.r_jet)
  have htot := ((hP.add harc2).add hlog).const_mul (p.b_0 * (d p * a p * a p / 6))
  have he : p.b_0 * (d p * a p * a p / 6) *
      (1 * (-6 * a p * a p - 18 * p.dr_jet * p.dr_jet + 18 * p.r_jet * p.r_jet -
          9 * p.r_jet * x + 2 * x * x) +
        x * (0 - 9 * p.r_jet * 1 + (2 * 1 * x + 2 * x * 1)) +
        6 * a p * (a p * a p + 3 * p.dr_jet * p.dr_jet - 3 * p.r_jet * p.r_jet) *
          (1 / (1 + (x / a p) ^ 2) * (1 / a p)) +
        (9 * p.r_jet * a p * a p + 6 * p.dr_jet * p.dr_jet * p.dr_jet +
          9 * p.r_jet * p.dr_jet * p.dr_jet - 3 * p.r_jet * p.r_jet * p.r_jet) *
          ((1 * x + x * 1) / (a p * a p + x * x))) = Dfintg2 p x := by
    rw [Dfintg2]
    field_simp
    ring
  rw [he] at htot
  exact htot

/-- At the left regime boundary the `fintg2` derivative equals the
`fintg1` derivative (with `d = 1/(4 dr_jet³)`). -/
lemma fintg2_deriv_left (p : Params) (ha : a p ≠ 0) (hdr : p.dr_jet ≠ 0) :
    Dfintg2 p (p.r_jet - p.dr_jet) = Dfintg1 p (p.r_jet - p.dr_jet) := by
  have hpos := a_sq_add_pos p ha (p.r_jet - p.dr_jet)
  rw [Dfintg2, Dfintg1, d]
  field_simp
  ring

/-- At the right regime boundary the `fintg2` derivative vanishes (with
`d = 1/(4 dr_jet³)`). -/
lemma fintg2_deriv_right (p : Params) (ha : a p ≠ 0) (hdr : p.dr_jet ≠ 0) :
    Dfintg2 p (p.r_jet + p.dr_jet) = 0 := by
  have hpos := a_sq_add_pos p ha (p.r_jet + p.dr_jet)
  rw [Dfintg2, d]
  field_simp
  ring

/-- C4: the flux regimes agree exactly at both internal boundaries (the
piecewise value at each boundary equals the adjacent regime's closed
form), and the flux function is differentiable at both boundaries, with
derivative equal to the region-A profile `Dfintg1` at `r_jet - dr_jet`
(so the one-sided derivatives match there) and to `0`, the derivative of
the frozen region-C constant, at `r_jet + dr_jet`. -/
theorem flux_boundary_matching (p : Params) (ha : a p ≠ 0) (hdr : 0 < p.dr_jet) :
    (flux_intg p (p.r_jet - p.dr_jet) =
      fintg1 p (p.r_jet - p.dr_jet) - fintg1 p p.x1min) ∧
    (flux_intg p (p.r_jet + p.dr_jet) =
      fintg2 p (p.r_jet + p.dr_jet) - fintg2 p (p.r_jet - p.dr_jet) +
        fintg1 p (p.r_jet - p.dr_jet) - fintg1 p p.x1min) ∧
    HasDerivAt (flux_intg p) (Dfintg1 p (p.r_jet - p.dr_jet))
      (p.r_jet - p.dr_jet) ∧
    HasDerivAt (flux_intg p) 0 (p.r_jet + p.dr_jet) := by
  have hb12 : p.r_jet - p.dr_jet < p.r_jet + p.dr_jet := by linarith
  have hc1 : flux_intg p (p.r_jet - p.dr_jet) =
      fintg1 p (p.r_jet - p.dr_jet) - fintg1 p p.x1min := by
    rw [flux_intg, if_neg (lt_irrefl _), if_pos hb12]
    ring
  have hc2 : flux_intg p (p.r_jet + p.dr_jet) =
      fintg2 p (p.r_jet + p.dr_jet) - fintg2 p (p.r_jet - p.dr_jet) +
        fintg1 p (p.r_jet - p.dr_jet) - fintg1 p p.x1min := by
    rw [flux_intg, if_neg (not_lt.mpr (le_of_lt hb12)), if_neg (lt_irrefl _)]
  refine ⟨hc1, hc2, ?_, ?_⟩
  · -- differentiability at the left boundary
    have hA : HasDerivAt (fun x => fintg1 p x - fintg1 p p.x1min)
        (Dfintg1 p (p.r_jet - p.dr_jet)) (p.r_jet - p.dr_jet) :=
      (hasDerivAt_fintg1 p ha _).sub_const _
    have hL : HasDerivWithinAt (flux_intg p) (Dfintg1 p (p.r_jet - p.dr_jet))
        (Set.Iic (p.r_jet - p.dr_jet)) (p.r_jet - p.dr_jet) := by
      refine HasDerivWithinAt.congr hA.hasDerivWithinAt (fun y hy => ?_) hc1
      rcases lt_or_eq_of_le (Set.mem_Iic.mp hy) with hlt | heq
      · rw [flux_intg, if_pos hlt]
      · rw [heq]
        exact hc1
    have hB : HasDerivAt
        (fun x => fintg2 p x - fintg2 p (p.r_jet - p.dr_jet) +
          fintg1 p (p.r_jet - p.dr_jet) - fintg1 p p.x1min)
        (Dfintg1 p (p.r_jet - p.dr_jet)) (p.r_jet - p.dr_jet) := by
      have h := (((hasDerivAt_fintg2 p ha (p.r_jet - p.dr_jet)).sub_const
        (fintg2 p (p.r_jet - p.dr_jet))).add_const
        (fintg1 p (p.r_jet - p.dr_jet))).sub_const (fintg1 p p.x1min)
      rwa [fintg2_deriv_left p ha hdr.ne'] at h
    have hR : HasDerivWithinAt (flux_intg p) (Dfintg1 p (p.r_jet - p.dr_jet))
        (Set.Ici (p.r_jet - p.dr_jet)) (p.r_jet - p.dr_jet) := by
      refine HasDerivWithinAt.congr_of_eventuallyEq hB.hasDerivWithinAt ?_ ?_
      · refine Filter.eventuallyEq_of_mem (Ico_mem_nhdsWithin_Ici' hb12)
          (fun y hy => ?_)
        rw [flux_intg, if_neg (not_lt.mpr hy.1), if_pos hy.2]
      · rw [flux_intg, if_neg (lt_irrefl _), if_pos hb12]
    have hU := hL.union hR
    rw [Set.Iic_union_Ici] at hU
    exact hasDerivWithinAt_univ.mp hU
  · -- differentiability at the right boundary
    have hB : HasDerivAt
        (fun x => fintg2 p x - fintg2 p (p.r_jet - p.dr_jet) +
          fintg1 p (p.r_jet - p.dr_jet) - fintg1 p p.x1min)
        0 (p.r_jet + p.dr_jet) := by
      have h := (((hasDerivAt_fintg2 p ha (p.r_jet + p.dr_jet)).sub_const
        (fintg2 p (p.r_jet - p.dr_jet))).add_const
        (fintg1 p (p.r_jet - p.dr_jet))).sub_const (fintg1 p p.x1min)
      rwa [fintg2_deriv_right p ha hdr.ne'] at h
    have hL : HasDerivWithinAt (flux_intg p) 0
        (Set.Iic (p.r_jet + p.dr_jet)) (p.r_jet + p.dr_jet) := by
      refine HasDerivWithinAt.congr_of_eventuallyEq hB.hasDerivWithinAt ?_ ?_
      · refine Filter.eventuallyEq_of_mem (Ioc_mem_nhdsWithin_Iic' hb12)
          (fun y hy => ?_)
        rcases lt_or_eq_of_le hy.2 with hlt | heq
        · rw [flux_intg, if_neg (not_lt.mpr (le_of_lt hy.1)), if_pos hlt]
        · rw [heq, flux_intg, if_neg (not_lt.mpr (le_of_lt hb12)),
            if_neg (lt_irrefl _)]
      · exact hc2
    have hR : HasDerivWithinAt (flux_intg p) 0
        (Set.Ici (p.r_jet + p.dr_jet)) (p.r_jet + p.dr_jet) := by
      refine HasDerivWithinAt.congr
        (hasDerivWithinAt_const (p.r_jet + p.dr_jet) _
          (fintg2 p (p.r_jet + p.dr_jet) - fintg2 p (p.r_jet - p.dr_jet) +
            fintg1 p (p.r_jet - p.dr_jet) - fintg1 p p.x1min))
        (fun y hy => ?_) hc2
      have hy' := Set.mem_Ici.mp hy
      rw [flux_intg, if_neg (not_lt.mpr (le_of_lt (lt_of_lt_of_le hb12 hy'))),
        if_neg (not_lt.mpr hy')]
    have hU := hL.union hR
    rw [Set.Iic_union_Ici] at hU
    exact hasDerivWithinAt_univ.mp hU

/-- Witness for `flux_boundary_matching` at the concrete parameters
(`a = 1 ≠ 0`, `dr_jet = 1/2 > 0`). -/
theorem flux_boundary_matching_witness :
    a cp ≠ 0 ∧ 0 < cp.dr_jet ∧
      HasDerivAt (flux_intg cp) 0 (cp.r_jet + cp.dr_jet) :=
  ⟨by norm_num [a, cp], by norm_num [cp],
   (flux_boundary_matching cp (by norm_num [a, cp]) (by norm_num [cp])).2.2.2⟩

end Srjet
